import Mathlib

/-!
Verification of the discovery-engine core of the `quran-miracles` backend.

The Python sources embedded here:
  * `backend/discovery_engine/core/graph.py` — the node functions
    (`quality_review_node`, `synthesis_node`, the fan-out nodes), the
    conditional edge `should_deepen`, and the `_FallbackGraph.ainvoke`
    merge of a fan-out super-step;
  * `backend/discovery_engine/core/state.py` — `DiscoveryState`, a dict
    with every key optional and `streaming_updates` an append-only log;
  * `backend/discovery_engine/agents/quality_review.py` —
    `QualityReviewAgent.review` and `_rule_based_checks`;
  * `backend/discovery_engine/agents/synthesis.py` — the confidence-tier
    substring scan of `SynthesisAgent.synthesize`;
  * `backend/api/routes/discovery.py` — `_translate_node`,
    `event_generator`, `_complete_event`;
  * `backend/discovery_engine/autonomous/scheduler.py` —
    `AutonomousDiscoveryScheduler.start` and `_run_mcts_session`.

Python dict values are modelled by the inductive `Value`; a Python dict
is an association list `Dict := List (String × Value)` (keys unique in
every dict the program builds).  Floats are modelled by `ℚ`.  External
effects (LLM calls, agent results) are inputs to the embedded functions.
-/

/-- A Python value as stored in the `DiscoveryState` dict: strings,
ints, floats (as `ℚ`), bools, lists (spine `vnil`/`vcons`), dicts
(spine `dnil`/`dcons`) and `None`. -/
inductive Value where
  | str (s : String)
  | int (n : Int)
  | rat (q : ℚ)
  | bool (b : Bool)
  | vnil
  | vcons (hd tl : Value)
  | dnil
  | dcons (k : String) (v rest : Value)
  | none
  deriving DecidableEq, Repr

/-- Build a `Value` list from a Lean list. -/
def Value.ofList : List Value → Value
  | [] => .vnil
  | x :: xs => .vcons x (ofList xs)

/-- Read a `Value` list back into a Lean list (non-list tails end the list). -/
def Value.toList : Value → List Value
  | .vcons x t => x :: toList t
  | _ => []

/-- Build a `Value` dict from a Lean association list. -/
def Value.ofDict : List (String × Value) → Value
  | [] => .dnil
  | (k, v) :: r => .dcons k v (ofDict r)

/-- `isinstance(v, list)` of Python. -/
def Value.isList : Value → Bool
  | .vnil => true
  | .vcons _ _ => true
  | _ => false

@[simp] theorem Value.toList_ofList (l : List Value) : (Value.ofList l).toList = l := by
  induction l with
  | nil => rfl
  | cons x xs ih => simp [Value.ofList, Value.toList, ih]

@[simp] theorem Value.isList_ofList (l : List Value) : (Value.ofList l).isList = true := by
  cases l <;> rfl

/-- A Python dict (such as `DiscoveryState` or a node's update):
an association list with unique keys. -/
abbrev Dict := List (String × Value)

/-- `d.get(k)` of Python: the value at the first matching key. -/
def getVal (d : Dict) (k : String) : Option Value :=
  (d.find? (fun p => p.1 = k)).map (fun p => p.2)

/-- `d.get(k, default)` of Python. -/
def getValD (d : Dict) (k : String) (default : Value) : Value :=
  (getVal d k).getD default

/-- `k in d` of Python. -/
def hasKey (d : Dict) (k : String) : Bool :=
  d.any (fun p => p.1 = k)

/-- `d[k] = v` of Python: replace the value at an existing key in place,
otherwise append the pair at the end (dict insertion order). -/
def setKey (d : Dict) (k : String) (v : Value) : Dict :=
  if hasKey d k then d.map (fun p => if p.1 = k then (k, v) else p)
  else d ++ [(k, v)]

/-- `state.get("streaming_updates", [])` read as a Lean list. -/
def getStream (d : Dict) : List Value :=
  (getValD d "streaming_updates" Value.vnil).toList

/-- The inner loop of `_FallbackGraph.ainvoke` (graph.py 301–303):
`for u in val: if u not in base_updates: base_updates.append(u)`. -/
def appendNew (base : List Value) (val : List Value) : List Value :=
  val.foldl (fun acc u => if u ∈ acc then acc else acc ++ [u]) base

/-- The key/value loop of `_FallbackGraph.ainvoke` (graph.py 299–305)
over the items of one node's update: `streaming_updates` lists are
deduplicate-appended into the accumulator `b`, every other key is
assigned into the state `r`. -/
def applyItems : Dict → List Value → List (String × Value) → Dict × List Value
  | r, b, [] => (r, b)
  | r, b, (k, v) :: rest =>
    if k = "streaming_updates" ∧ v.isList = true then
      applyItems r (appendNew b v.toList) rest
    else
      applyItems (setKey r k v) b rest

/-- The merge of a fan-out super-step, `_FallbackGraph.ainvoke`
(graph.py 297–306): start `base_updates` from the pre-step log, fold the
per-node updates in the gather order, then store the accumulated log. -/
def mergeFanout (result : Dict) (parts : List Dict) : Dict :=
  let b0 := getStream result
  let rb := parts.foldl (fun (acc : Dict × List Value) p => applyItems acc.1 acc.2 p) (result, b0)
  setKey rb.1 "streaming_updates" (Value.ofList rb.2)

/-- Merging a single node's update, the unit of `mergeFanout`. -/
def mergeOne (st : Dict) (p : Dict) : Dict :=
  mergeFanout st [p]

/-- The progress record appended by `science_node` (graph.py 109). -/
def science_record (finding_count : Int) : Value :=
  Value.ofDict [("stage", .str "science"), ("status", .str "done"),
                ("finding_count", .int finding_count)]

/-- The progress record appended by `tafseer_node` (graph.py 118). -/
def tafseer_record : Value :=
  Value.ofDict [("stage", .str "tafseer"), ("status", .str "done")]

/-- The progress record appended by `humanities_node` (graph.py 134). -/
def humanities_record (finding_count : Int) : Value :=
  Value.ofDict [("stage", .str "humanities"), ("status", .str "done"),
                ("finding_count", .int finding_count)]

/-- The update returned by `science_node` (graph.py 106–110), given the
agent findings gathered for the snapshot `st`. -/
def science_update (st : Dict) (findings : List Value) : Dict :=
  [("science_findings", Value.ofList findings),
   ("streaming_updates", Value.ofList (getStream st ++ [science_record findings.length]))]

/-- The update returned by `tafseer_node` (graph.py 115–119), given the
agent result for the snapshot `st`. -/
def tafseer_update (st : Dict) (result : Value) : Dict :=
  [("tafseer_findings", result),
   ("streaming_updates", Value.ofList (getStream st ++ [tafseer_record]))]

/-- The update returned by `humanities_node` (graph.py 131–135), given
the agent result for the snapshot `st`. -/
def humanities_update (st : Dict) (result : List Value) : Dict :=
  [("humanities_findings", Value.ofList result),
   ("streaming_updates", Value.ofList (getStream st ++ [humanities_record result.length]))]

/-- One fan-out super-step of `_FallbackGraph.ainvoke` (graph.py
292–306): gather the three parallel nodes on the same snapshot, then
merge their updates in the tuple order `(sci, taf, hum)`. -/
def fanoutStep (st : Dict) (sciF : List Value) (tafR : Value) (humF : List Value) : Dict :=
  mergeFanout st [science_update st sciF, tafseer_update st tafR, humanities_update st humF]

/-- The `stage` field of a progress record. -/
def stageOf (v : Value) : Option Value :=
  match v with
  | .dcons k w rest => if k = "stage" then some w else stageOf rest
  | _ => Option.none

-- ── Dict and appendNew lemmas ──────────────────────────────────────────

theorem getVal_setKey (d : Dict) (k : String) (v : Value) :
    getVal (setKey d k v) k = some v := by
  unfold setKey getVal
  split
  · rename_i h
    rw [List.find?_map]
    have hpred : ((fun p : String × Value => decide (p.1 = k)) ∘
        fun p => if p.1 = k then (k, v) else p)
        = fun p : String × Value => decide (p.1 = k) := by
      funext p
      by_cases hp : p.1 = k <;> simp [hp]
    rw [hpred]
    have hsome : (d.find? (fun p => decide (p.1 = k))).isSome = true := by
      rw [List.find?_isSome]
      unfold hasKey at h
      exact List.any_eq_true.mp h
    obtain ⟨q, hq⟩ := Option.isSome_iff_exists.mp hsome
    have hqk : q.1 = k := by simpa using List.find?_some hq
    simp [hq, hqk]
  · rw [List.find?_append]
    rename_i h
    have hnone : d.find? (fun p => decide (p.1 = k)) = Option.none := by
      rw [List.find?_eq_none]
      intro x hx hxk
      apply h
      unfold hasKey
      exact List.any_eq_true.mpr ⟨x, hx, hxk⟩
    simp [hnone, List.find?]

theorem getVal_setKey_ne (d : Dict) (k : String) (v : Value) (k' : String) (h : k' ≠ k) :
    getVal (setKey d k v) k' = getVal d k' := by
  unfold setKey getVal
  split
  · rw [List.find?_map]
    have hpred : ((fun p : String × Value => decide (p.1 = k')) ∘
        fun p => if p.1 = k then (k, v) else p)
        = fun p : String × Value => decide (p.1 = k') := by
      funext p
      by_cases hp : p.1 = k
      · simp [hp, Ne.symm h, fun hk' : k = k' => h hk'.symm]
      · simp [hp]
    rw [hpred]
    cases hfind : d.find? (fun p => decide (p.1 = k')) with
    | none => simp [hfind]
    | some q =>
      have hqk : q.1 = k' := by simpa using List.find?_some hfind
      have hqne : ¬ q.1 = k := fun hk => h (hqk ▸ hk ▸ rfl)
      simp [hfind, hqne]
  · rw [List.find?_append]
    have : ([(k, v)].find? (fun p => decide (p.1 = k'))) = Option.none := by
      simp [List.find?, Ne.symm h]
    simp [this]

@[simp] theorem appendNew_nil (b : List Value) : appendNew b [] = b := rfl

theorem appendNew_cons (b : List Value) (u : Value) (l : List Value) :
    appendNew b (u :: l) = appendNew (if u ∈ b then b else b ++ [u]) l := rfl

theorem appendNew_of_subset (b : List Value) (val : List Value)
    (h : ∀ u ∈ val, u ∈ b) : appendNew b val = b := by
  induction val with
  | nil => rfl
  | cons u l ih =>
    rw [appendNew_cons, if_pos (h u (List.mem_cons_self u l))]
    exact ih (fun x hx => h x (List.mem_cons_of_mem u hx))

theorem mem_appendNew_base (b : List Value) (val : List Value) (u : Value)
    (h : u ∈ b) : u ∈ appendNew b val := by
  induction val generalizing b with
  | nil => exact h
  | cons x l ih =>
    rw [appendNew_cons]
    split
    · exact ih b h
    · exact ih (b ++ [x]) (List.mem_append_left _ h)

theorem mem_appendNew_val (b : List Value) (val : List Value) (u : Value)
    (h : u ∈ val) : u ∈ appendNew b val := by
  induction val generalizing b with
  | nil => simp at h
  | cons x l ih =>
    rw [appendNew_cons]
    rcases List.mem_cons.mp h with h | h
    · subst h
      split
      · rename_i hm
        exact mem_appendNew_base _ _ _ hm
      · exact mem_appendNew_base _ _ _ (List.mem_append_right _ (List.mem_singleton.mpr rfl))
    · exact ih _ h

theorem appendNew_append (b : List Value) (l₁ l₂ : List Value) :
    appendNew b (l₁ ++ l₂) = appendNew (appendNew b l₁) l₂ := by
  unfold appendNew
  exact List.foldl_append _ _ _ _

theorem appendNew_base_single (b : List Value) (r : Value) (h : r ∉ b) :
    appendNew b (b ++ [r]) = b ++ [r] := by
  rw [appendNew_append, appendNew_of_subset b b (fun u hu => hu)]
  simp [appendNew, h]

theorem appendNew_extend (b ex : List Value) (u : Value) (hu : u ∉ b) (hex : u ∉ ex) :
    appendNew (b ++ ex) (b ++ [u]) = b ++ (ex ++ [u]) := by
  rw [appendNew_append]
  rw [appendNew_of_subset (b ++ ex) b (fun x hx => List.mem_append_left _ hx)]
  have : u ∉ b ++ ex := by
    intro hmem
    rcases List.mem_append.mp hmem with h | h
    · exact hu h
    · exact hex h
  simp [appendNew, this]

theorem science_record_ne_tafseer_record (n : Int) : science_record n ≠ tafseer_record := by
  simp [science_record, tafseer_record, Value.ofDict]

theorem humanities_record_ne_science_record (n m : Int) :
    humanities_record n ≠ science_record m := by
  simp [humanities_record, science_record, Value.ofDict]

theorem humanities_record_ne_tafseer_record (n : Int) :
    humanities_record n ≠ tafseer_record := by
  simp [humanities_record, tafseer_record, Value.ofDict]

theorem applyItems_pair (r : Dict) (b : List Value) (k1 : String) (v1 : Value)
    (tail : List Value) (hk1 : ¬(k1 = "streaming_updates" ∧ v1.isList = true)) :
    applyItems r b [(k1, v1), ("streaming_updates", Value.ofList tail)]
      = (setKey r k1 v1, appendNew b tail) := by
  simp [applyItems, hk1]

/-- The fully-evaluated fan-out merge: each node's plain key is assigned,
and the log is the pre-step log followed by the three appended records in
the gather order `(science, tafseer, humanities)`. -/
theorem fanoutStep_eq (st : Dict) (sciF : List Value) (tafR : Value) (humF : List Value)
    (h1 : science_record sciF.length ∉ getStream st)
    (h2 : tafseer_record ∉ getStream st)
    (h3 : humanities_record humF.length ∉ getStream st) :
    fanoutStep st sciF tafR humF
      = setKey
          (setKey
            (setKey
              (setKey st "science_findings" (Value.ofList sciF))
              "tafseer_findings" tafR)
            "humanities_findings" (Value.ofList humF))
          "streaming_updates"
          (Value.ofList (getStream st ++
            [science_record sciF.length, tafseer_record, humanities_record humF.length])) := by
  unfold fanoutStep mergeFanout science_update tafseer_update humanities_update
  simp only [List.foldl_cons, List.foldl_nil]
  rw [applyItems_pair _ _ _ _ _ (by simp)]
  rw [applyItems_pair _ _ _ _ _ (by simp)]
  rw [applyItems_pair _ _ _ _ _ (by simp)]
  have e1 : appendNew (getStream st) (getStream st ++ [science_record sciF.length])
      = getStream st ++ [science_record sciF.length] := by
    have := appendNew_extend (getStream st) [] (science_record sciF.length) h1 (by simp)
    simpa using this
  rw [e1]
  have e2 : appendNew (getStream st ++ [science_record sciF.length])
      (getStream st ++ [tafseer_record])
      = getStream st ++ [science_record sciF.length, tafseer_record] := by
    have := appendNew_extend (getStream st) [science_record sciF.length] tafseer_record h2
      (by simp [Ne.symm (science_record_ne_tafseer_record sciF.length)])
    simpa using this
  rw [e2]
  have e3 : appendNew (getStream st ++ [science_record sciF.length, tafseer_record])
      (getStream st ++ [humanities_record humF.length])
      = getStream st ++ [science_record sciF.length, tafseer_record,
          humanities_record humF.length] := by
    have := appendNew_extend (getStream st) [science_record sciF.length, tafseer_record]
      (humanities_record humF.length) h3
      (by
        simp [humanities_record_ne_science_record humF.length sciF.length,
          humanities_record_ne_tafseer_record humF.length])
    simpa using this
  rw [e3]

/-- Claim C3, counterexample: merging the fan-out super-step on an empty
log appends the three stage records in the gather order
`science, tafseer, humanities`, not in stage-name lexicographic order
`humanities, science, tafseer` as the claim states. -/
theorem claim_C3_counterexample :
    (getStream (fanoutStep [("streaming_updates", Value.vnil)] [] Value.dnil [])).map stageOf
      = [some (.str "science"), some (.str "tafseer"), some (.str "humanities")]
    ∧ (getStream (fanoutStep [("streaming_updates", Value.vnil)] [] Value.dnil [])).map stageOf
      ≠ [some (.str "humanities"), some (.str "science"), some (.str "tafseer")] := by
  decide

/-- Claim C3, amended: when the engine merges the partial updates of a
fan-out super-step, every plain key is assigned to the state, and the
merged `streaming_updates` is the pre-step log concatenated with the
per-stage appended tails in the gather order science, tafseer,
humanities (deduplicated by record equality). -/
theorem claim_C3_amended (st : Dict) (sciF : List Value) (tafR : Value) (humF : List Value)
    (h1 : science_record sciF.length ∉ getStream st)
    (h2 : tafseer_record ∉ getStream st)
    (h3 : humanities_record humF.length ∉ getStream st) :
    getVal (fanoutStep st sciF tafR humF) "science_findings" = some (Value.ofList sciF)
    ∧ getVal (fanoutStep st sciF tafR humF) "tafseer_findings" = some tafR
    ∧ getVal (fanoutStep st sciF tafR humF) "humanities_findings" = some (Value.ofList humF)
    ∧ getStream (fanoutStep st sciF tafR humF)
      = getStream st ++
          [science_record sciF.length, tafseer_record, humanities_record humF.length] := by
  rw [fanoutStep_eq st sciF tafR humF h1 h2 h3]
  refine ⟨?_, ?_, ?_, ?_⟩
  · rw [getVal_setKey_ne _ _ _ _ (by decide), getVal_setKey_ne _ _ _ _ (by decide),
      getVal_setKey_ne _ _ _ _ (by decide), getVal_setKey]
  · rw [getVal_setKey_ne _ _ _ _ (by decide), getVal_setKey_ne _ _ _ _ (by decide),
      getVal_setKey]
  · rw [getVal_setKey_ne _ _ _ _ (by decide), getVal_setKey]
  · unfold getStream getValD
    rw [getVal_setKey]
    simp

/-- Witness for `claim_C3_amended` at a concrete state and concrete agent
results. -/
theorem claim_C3_amended_witness :
    science_record 1 ∉ getStream [("streaming_updates", Value.vnil), ("query", Value.str "q")]
    ∧ tafseer_record ∉ getStream [("streaming_updates", Value.vnil), ("query", Value.str "q")]
    ∧ humanities_record 0 ∉ getStream [("streaming_updates", Value.vnil), ("query", Value.str "q")]
    ∧ getStream (fanoutStep [("streaming_updates", Value.vnil), ("query", Value.str "q")]
        [Value.str "finding"] Value.dnil [])
      = [science_record 1, tafseer_record, humanities_record 0] := by
  refine ⟨by decide, by decide, by decide, ?_⟩
  have h := claim_C3_amended [("streaming_updates", Value.vnil), ("query", Value.str "q")]
    [Value.str "finding"] Value.dnil [] (by decide) (by decide) (by decide)
  simpa using h.2.2.2

-- ── Idempotence of the merge ───────────────────────────────────────────

/-- `d` maps the key `k` to `v`: every entry at `k` carries `v`, and the
key is present. -/
def keyHolds (d : Dict) (k : String) (v : Value) : Prop :=
  (∀ q ∈ d, q.1 = k → q.2 = v) ∧ (∃ q ∈ d, q.1 = k)

theorem keyHolds_setKey (d : Dict) (k : String) (v : Value) :
    keyHolds (setKey d k v) k v := by
  unfold setKey keyHolds
  split
  · rename_i h
    constructor
    · intro q hq hqk
      obtain ⟨p, hp, hpq⟩ := List.mem_map.mp hq
      by_cases hpk : p.1 = k
      · rw [if_pos hpk] at hpq
        rw [← hpq]
      · rw [if_neg hpk] at hpq
        subst hpq
        exact absurd hqk hpk
    · obtain ⟨p, hp, hpk⟩ := List.any_eq_true.mp h
      refine ⟨(k, v), List.mem_map.mpr ⟨p, hp, ?_⟩, rfl⟩
      rw [if_pos (by simpa using hpk)]
  · rename_i h
    constructor
    · intro q hq hqk
      rcases List.mem_append.mp hq with h1 | h1
      · exact absurd (List.any_eq_true.mpr ⟨q, h1, by simpa using hqk⟩) h
      · rw [List.mem_singleton.mp h1]
    · exact ⟨(k, v), List.mem_append_right _ (List.mem_singleton.mpr rfl), rfl⟩

theorem keyHolds_setKey_ne (d : Dict) (k : String) (v : Value) (k' : String) (w : Value)
    (h : k' ≠ k) (hk : keyHolds d k v) : keyHolds (setKey d k' w) k v := by
  unfold setKey
  split
  · constructor
    · intro q hq hqk
      obtain ⟨p, hp, hpq⟩ := List.mem_map.mp hq
      by_cases hpk' : p.1 = k'
      · rw [if_pos hpk'] at hpq
        subst hpq
        exact absurd hqk h
      · rw [if_neg hpk'] at hpq
        subst hpq
        exact hk.1 p hp hqk
    · obtain ⟨q, hq, hqk⟩ := hk.2
      have hqk' : ¬ q.1 = k' := fun e => h (by rw [← e, hqk])
      exact ⟨q, List.mem_map.mpr ⟨q, hq, by rw [if_neg hqk']⟩, hqk⟩
  · constructor
    · intro q hq hqk
      rcases List.mem_append.mp hq with h1 | h1
      · exact hk.1 q h1 hqk
      · rw [List.mem_singleton.mp h1] at hqk
        exact absurd hqk h
    · obtain ⟨q, hq, hqk⟩ := hk.2
      exact ⟨q, List.mem_append_left _ hq, hqk⟩

theorem setKey_of_keyHolds (d : Dict) (k : String) (v : Value) (h : keyHolds d k v) :
    setKey d k v = d := by
  unfold setKey
  have hhas : hasKey d k = true := by
    obtain ⟨q, hq, hqk⟩ := h.2
    exact List.any_eq_true.mpr ⟨q, hq, by simpa using hqk⟩
  rw [if_pos hhas]
  have : ∀ p ∈ d, (if p.1 = k then (k, v) else p) = p := by
    intro p hp
    by_cases hpk : p.1 = k
    · rw [if_pos hpk]
      have hv := h.1 p hp hpk
      obtain ⟨p1, p2⟩ := p
      simp only at hpk hv
      rw [hpk, hv]
    · rw [if_neg hpk]
  calc d.map (fun p => if p.1 = k then (k, v) else p)
      = d.map id := List.map_congr_left this
    _ = d := List.map_id d

theorem applyItems_keyHolds (items : List (String × Value)) (r : Dict) (b : List Value)
    (k : String) (v : Value) (hne : ∀ q ∈ items, q.1 ≠ k) (h : keyHolds r k v) :
    keyHolds (applyItems r b items).1 k v := by
  induction items generalizing r b with
  | nil => exact h
  | cons q rest ih =>
    obtain ⟨qk, qv⟩ := q
    unfold applyItems
    split
    · exact ih r _ (fun p hp => hne p (List.mem_cons_of_mem _ hp)) h
    · refine ih _ b (fun p hp => hne p (List.mem_cons_of_mem _ hp)) ?_
      exact keyHolds_setKey_ne r k v qk qv
        (hne (qk, qv) (List.mem_cons_self _ _)) h

theorem mem_applyItems_b (items : List (String × Value)) (r : Dict) (b : List Value)
    (u : Value) (h : u ∈ b) : u ∈ (applyItems r b items).2 := by
  induction items generalizing r b with
  | nil => exact h
  | cons q rest ih =>
    obtain ⟨qk, qv⟩ := q
    unfold applyItems
    split
    · exact ih r _ (mem_appendNew_base _ _ _ h)
    · exact ih _ b h

theorem applyItems_fixed (items : List (String × Value)) (r : Dict) (b : List Value)
    (h1 : ∀ q ∈ items, q.1 ≠ "streaming_updates" → keyHolds r q.1 q.2)
    (h2 : ∀ q ∈ items, q.1 = "streaming_updates" →
      q.2.isList = true ∧ ∀ u ∈ q.2.toList, u ∈ b) :
    applyItems r b items = (r, b) := by
  induction items with
  | nil => rfl
  | cons q rest ih =>
    obtain ⟨qk, qv⟩ := q
    unfold applyItems
    by_cases hc : qk = "streaming_updates" ∧ qv.isList = true
    · rw [if_pos hc]
      rw [appendNew_of_subset b _ (h2 (qk, qv) (List.mem_cons_self _ _) hc.1).2]
      exact ih (fun p hp hne => h1 p (List.mem_cons_of_mem _ hp) hne)
        (fun p hp he => h2 p (List.mem_cons_of_mem _ hp) he)
    · rw [if_neg hc]
      have hqk : qk ≠ "streaming_updates" := by
        intro he
        exact hc ⟨he, (h2 (qk, qv) (List.mem_cons_self _ _) he).1⟩
      rw [setKey_of_keyHolds r qk qv (h1 (qk, qv) (List.mem_cons_self _ _) hqk)]
      exact ih (fun p hp hne => h1 p (List.mem_cons_of_mem _ hp) hne)
        (fun p hp he => h2 p (List.mem_cons_of_mem _ hp) he)

theorem applyItems_establish (items : List (String × Value)) (r : Dict) (b : List Value)
    (hnd : (items.map Prod.fst).Nodup)
    (hl : ∀ q ∈ items, q.1 = "streaming_updates" → q.2.isList = true) :
    (∀ q ∈ items, q.1 ≠ "streaming_updates" → keyHolds (applyItems r b items).1 q.1 q.2)
    ∧ (∀ q ∈ items, q.1 = "streaming_updates" →
        ∀ u ∈ q.2.toList, u ∈ (applyItems r b items).2) := by
  induction items generalizing r b with
  | nil =>
    constructor
    · intro q hq
      exact absurd hq (List.not_mem_nil q)
    · intro q hq
      exact absurd hq (List.not_mem_nil q)
  | cons q rest ih =>
    obtain ⟨qk, qv⟩ := q
    obtain ⟨hknotin, hnd'⟩ := List.nodup_cons.mp hnd
    have hl' : ∀ p ∈ rest, p.1 = "streaming_updates" → p.2.isList = true :=
      fun p hp => hl p (List.mem_cons_of_mem _ hp)
    by_cases hc : qk = "streaming_updates" ∧ qv.isList = true
    · unfold applyItems
      rw [if_pos hc]
      obtain ⟨ihA, ihB⟩ := ih r (appendNew b qv.toList) hnd' hl'
      constructor
      · intro p hp hpne
        rcases List.mem_cons.mp hp with he | hp'
        · rw [he] at hpne
          exact absurd hc.1 hpne
        · exact ihA p hp' hpne
      · intro p hp hpe u hu
        rcases List.mem_cons.mp hp with he | hp'
        · rw [he] at hu
          exact mem_applyItems_b rest r _ u (mem_appendNew_val b _ u hu)
        · exact ihB p hp' hpe u hu
    · unfold applyItems
      rw [if_neg hc]
      have hqk : qk ≠ "streaming_updates" := by
        intro he
        exact hc ⟨he, hl (qk, qv) (List.mem_cons_self _ _) he⟩
      obtain ⟨ihA, ihB⟩ := ih (setKey r qk qv) b hnd' hl'
      constructor
      · intro p hp hpne
        rcases List.mem_cons.mp hp with he | hp'
        · rw [he]
          refine applyItems_keyHolds rest _ b qk qv ?_ (keyHolds_setKey r qk qv)
          intro p' hp' he'
          exact hknotin (he' ▸ List.mem_map.mpr ⟨p', hp', rfl⟩)
        · exact ihA p hp' hpne
      · intro p hp hpe u hu
        rcases List.mem_cons.mp hp with he | hp'
        · rw [he] at hpe
          exact absurd hpe hqk
        · exact ihB p hp' hpe u hu

/-- Claim C4: merging the same partial update into a state twice yields
the same state as merging it once — plain keys are overwritten with the
same value, and the `streaming_updates` append skips records already in
the log (record equality).  The update is a Python dict, so its keys are
unique, and its `streaming_updates` value, when present, is a list. -/
theorem claim_C4 (st p : Dict)
    (hnd : (p.map Prod.fst).Nodup)
    (hl : ∀ q ∈ p, q.1 = "streaming_updates" → q.2.isList = true) :
    mergeOne (mergeOne st p) p = mergeOne st p := by
  unfold mergeOne mergeFanout
  simp only [List.foldl_cons, List.foldl_nil]
  have hstream : getStream (setKey (applyItems st (getStream st) p).1 "streaming_updates"
      (Value.ofList (applyItems st (getStream st) p).2))
      = (applyItems st (getStream st) p).2 := by
    unfold getStream getValD
    rw [getVal_setKey]
    simp
  rw [hstream]
  obtain ⟨hA, hB⟩ := applyItems_establish p st (getStream st) hnd hl
  have hfix : applyItems
      (setKey (applyItems st (getStream st) p).1 "streaming_updates"
        (Value.ofList (applyItems st (getStream st) p).2))
      (applyItems st (getStream st) p).2 p
      = (setKey (applyItems st (getStream st) p).1 "streaming_updates"
          (Value.ofList (applyItems st (getStream st) p).2),
         (applyItems st (getStream st) p).2) := by
    apply applyItems_fixed
    · intro q hq hqne
      exact keyHolds_setKey_ne _ _ _ _ _ (Ne.symm hqne) (hA q hq hqne)
    · intro q hq hqe
      exact ⟨hl q hq hqe, fun u hu => hB q hq hqe u hu⟩
  rw [hfix]
  exact setKey_of_keyHolds _ _ _ (keyHolds_setKey _ _ _)

/-- Witness for `claim_C4` at a concrete state and a concrete partial
update. -/
theorem claim_C4_witness :
    (([("science_findings", Value.ofList [Value.str "f"]),
       ("streaming_updates", Value.ofList [science_record 1])] : Dict).map Prod.fst).Nodup
    ∧ (∀ q ∈ ([("science_findings", Value.ofList [Value.str "f"]),
         ("streaming_updates", Value.ofList [science_record 1])] : Dict),
        q.1 = "streaming_updates" → q.2.isList = true)
    ∧ mergeOne (mergeOne [("query", Value.str "q"), ("streaming_updates", Value.vnil)]
        [("science_findings", Value.ofList [Value.str "f"]),
         ("streaming_updates", Value.ofList [science_record 1])])
        [("science_findings", Value.ofList [Value.str "f"]),
         ("streaming_updates", Value.ofList [science_record 1])]
      = mergeOne [("query", Value.str "q"), ("streaming_updates", Value.vnil)]
          [("science_findings", Value.ofList [Value.str "f"]),
           ("streaming_updates", Value.ofList [science_record 1])] :=
  ⟨by decide, by decide,
   claim_C4 [("query", Value.str "q"), ("streaming_updates", Value.vnil)]
     [("science_findings", Value.ofList [Value.str "f"]),
      ("streaming_updates", Value.ofList [science_record 1])]
     (by decide) (by decide)⟩

-- ── The quality gate and the deepen loop (graph.py 172–215) ────────────

/-- `_MAX_ITERATIONS` (graph.py 32). -/
def MAX_ITERATIONS : Nat := 3

/-- The dict returned by `QualityReviewAgent.review` (quality_review.py
50–54), an external input to the gate node. -/
structure ReviewResult where
  quality_score : ℚ
  quality_issues : List String
  should_deepen : Bool
  deriving Repr, DecidableEq

/-- The control fields of the update returned by `quality_review_node`
(graph.py 172–190). -/
structure QRUpdate where
  quality_score : ℚ
  quality_issues : List String
  should_deepen : Bool
  iteration_count : Nat
  deriving Repr, DecidableEq

/-- `quality_review_node` (graph.py 172–190): reads
`state.get("iteration_count", 0)`, adds 1, and forces `should_deepen`
to false once the incremented count reaches `_MAX_ITERATIONS`. -/
def quality_review_node (state_iteration_count : Option Nat) (result : ReviewResult) :
    QRUpdate :=
  let iteration := state_iteration_count.getD 0 + 1
  { quality_score := result.quality_score
    quality_issues := result.quality_issues
    should_deepen := result.should_deepen && decide (iteration < MAX_ITERATIONS)
    iteration_count := iteration }

/-- The conditional edge `should_deepen` (graph.py 211–215), evaluated on
the state right after the gate's update is merged. -/
def should_deepen (u : QRUpdate) : String :=
  if u.should_deepen = true ∧ u.iteration_count < MAX_ITERATIONS then "deepen"
  else "complete"

/-- The gate loop of the compiled graph: each loop-back re-enters
retrieval and reaches the gate again with the merged state; the list of
review results (one per gate evaluation) is the external input.  Returns
the trace of `iteration_count` values at each gate evaluation and the
terminal `iteration_count`. -/
def runGates : Option Nat → List ReviewResult → List Nat × Nat
  | ic, [] => ([], ic.getD 0)
  | ic, r :: rs =>
    let u := quality_review_node ic r
    if should_deepen u = "deepen" then
      let t := runGates (some u.iteration_count) rs
      (u.iteration_count :: t.1, t.2)
    else ([u.iteration_count], u.iteration_count)

theorem runGates_spec (rs : List ReviewResult) (ic : Nat) (hic : ic < MAX_ITERATIONS) :
    (runGates (some ic) rs).1 = List.range' (ic + 1) (runGates (some ic) rs).1.length
    ∧ (runGates (some ic) rs).2 ≤ MAX_ITERATIONS := by
  induction rs generalizing ic with
  | nil => exact ⟨rfl, Nat.le_of_lt hic⟩
  | cons r rs ih =>
    by_cases hd : should_deepen (quality_review_node (some ic) r) = "deepen"
    · have hlt : ic + 1 < MAX_ITERATIONS := by
        unfold should_deepen at hd
        split at hd
        · rename_i hcond
          simpa [quality_review_node] using hcond.2
        · exact absurd hd (by decide)
      obtain ⟨ihc, ihf⟩ := ih (ic + 1) hlt
      have hrun : runGates (some ic) (r :: rs)
          = ((ic + 1) :: (runGates (some (ic + 1)) rs).1,
             (runGates (some (ic + 1)) rs).2) := by
        simp only [runGates, hd, if_pos]
        simp [quality_review_node]
      rw [hrun]
      refine ⟨?_, ihf⟩
      simp only [List.length_cons, List.range'_succ]
      rw [← ihc]
    · have hrun : runGates (some ic) (r :: rs) = ([ic + 1], ic + 1) := by
        unfold runGates
        rw [if_neg hd]
        simp [quality_review_node]
      rw [hrun]
      exact ⟨by simp [List.range'], hic⟩

/-- Claim C1: across gate evaluations the `iteration_count` trace is
exactly `1, 2, …` (each gate adds 1 to the previous value, so the count
is monotonically non-decreasing), and the terminal `iteration_count`
satisfies `0 ≤ iteration_count ≤ MAX_ITERATIONS`. -/
theorem claim_C1 (rs : List ReviewResult) :
    (runGates (some 0) rs).1 = List.range' 1 (runGates (some 0) rs).1.length
    ∧ 0 ≤ (runGates (some 0) rs).2
    ∧ (runGates (some 0) rs).2 ≤ MAX_ITERATIONS := by
  obtain ⟨h1, h2⟩ := runGates_spec rs 0 (by decide)
  exact ⟨h1, Nat.zero_le _, h2⟩

/-- Claim C2: after `quality_review`, `should_deepen = true` implies
`iteration_count < MAX_ITERATIONS`; and when the agent requests
deepening at pre-increment count `MAX_ITERATIONS - 1`, the
post-increment count equals `MAX_ITERATIONS` and the conditional edge
returns `"complete"`. -/
theorem claim_C2 (ic : Option Nat) (r : ReviewResult) :
    ((quality_review_node ic r).should_deepen = true →
      (quality_review_node ic r).iteration_count < MAX_ITERATIONS)
    ∧ (ic.getD 0 = MAX_ITERATIONS - 1 → r.should_deepen = true →
        (quality_review_node ic r).iteration_count = MAX_ITERATIONS
        ∧ should_deepen (quality_review_node ic r) = "complete") := by
  constructor
  · intro h
    simp only [quality_review_node, Bool.and_eq_true, decide_eq_true_eq] at h
    exact h.2
  · intro hic hr
    have hit : (quality_review_node ic r).iteration_count = MAX_ITERATIONS := by
      simp [quality_review_node, hic, MAX_ITERATIONS]
    refine ⟨hit, ?_⟩
    unfold should_deepen
    rw [if_neg]
    intro hcond
    rw [hit] at hcond
    exact absurd hcond.2 (lt_irrefl _)

/-- Witness for `claim_C2`: the agent requests deepening at
pre-increment count 2 = MAX_ITERATIONS - 1. -/
theorem claim_C2_witness :
    (some 2 : Option Nat).getD 0 = MAX_ITERATIONS - 1
    ∧ (⟨1/2, [], true⟩ : ReviewResult).should_deepen = true
    ∧ (quality_review_node (some 2) ⟨1/2, [], true⟩).iteration_count = MAX_ITERATIONS
    ∧ should_deepen (quality_review_node (some 2) ⟨1/2, [], true⟩) = "complete" :=
  ⟨rfl, rfl,
   (claim_C2 (some 2) ⟨1/2, [], true⟩).2 rfl rfl⟩

-- ── Confidence-tier extraction (synthesis.py 63–68, graph.py 148–154) ──

/-- The tier scan of `SynthesisAgent.synthesize` (synthesis.py 63–68)
and `synthesis_node` (graph.py 148–154): `tier = "tier_2"`, then
`for t in ("tier_1", "tier_3"): if t in text: tier = t; break`.
The text is a list of characters; `in` is substring containment. -/
def extract_tier (synthesis_text : List Char) : String :=
  match ["tier_1", "tier_3"].find? (fun t => decide (t.data <:+: synthesis_text)) with
  | some t => t
  | Option.none => "tier_2"

/-- Claim C7: if neither `tier_1` nor `tier_3` occurs in the produced
text the tier is `tier_2`; if exactly one of them occurs, that one is
the tier. -/
theorem claim_C7 (text : List Char) :
    (¬ ("tier_1".data <:+: text) → ¬ ("tier_3".data <:+: text) →
      extract_tier text = "tier_2")
    ∧ (("tier_1".data <:+: text) → ¬ ("tier_3".data <:+: text) →
      extract_tier text = "tier_1")
    ∧ (("tier_3".data <:+: text) → ¬ ("tier_1".data <:+: text) →
      extract_tier text = "tier_3") := by
  refine ⟨?_, ?_, ?_⟩ <;> intro h1 h2 <;>
    simp [extract_tier, List.find?, h1, h2]

/-- Witness for `claim_C7` on a text with no tier marker. -/
theorem claim_C7_witness :
    ¬ ("tier_1".data <:+: "water cycle".data)
    ∧ ¬ ("tier_3".data <:+: "water cycle".data)
    ∧ extract_tier "water cycle".data = "tier_2" := by
  refine ⟨by decide, by decide, ?_⟩
  exact (claim_C7 "water cycle".data).1 (by decide) (by decide)

/-- Claim C10: when both `tier_1` and `tier_3` occur in the produced
text, the scan checks `tier_1` first and it wins. -/
theorem claim_C10 (text : List Char)
    (h1 : "tier_1".data <:+: text) (h3 : "tier_3".data <:+: text) :
    extract_tier text = "tier_1" := by
  simp [extract_tier, List.find?, h1]

/-- Witness for `claim_C10` on a text containing both markers. -/
theorem claim_C10_witness :
    ("tier_1".data <:+: "tier_1 tier_3".data)
    ∧ ("tier_3".data <:+: "tier_1 tier_3".data)
    ∧ extract_tier "tier_1 tier_3".data = "tier_1" := by
  refine ⟨by decide, by decide, ?_⟩
  exact claim_C10 "tier_1 tier_3".data (by decide) (by decide)

-- ── QualityReviewAgent.review (quality_review.py 26–110) ───────────────

/-- A science finding as read by `_rule_based_checks` (absent dict keys
read as the empty string). -/
structure SciFinding where
  main_objection : String := ""
  verse_key : String := "?"
  confidence_tier : String := ""
  deriving Repr, DecidableEq

/-- A humanities finding as read by `_rule_based_checks`. -/
structure HumFinding where
  intellectual_honesty_note : String := ""
  verse_key : String := "?"
  correlation_type : String := ""
  deriving Repr, DecidableEq

/-- The tafseer findings dict as read by `_rule_based_checks`. -/
structure TafseerFindings where
  consensus_view : String := ""
  shaarawy_linguistic_note : String := ""
  deriving Repr, DecidableEq

/-- The slice of the state read by `QualityReviewAgent`;
`tafseer_findings = none` models a non-dict value (the `isinstance`
check then skips the tafseer rules). -/
structure ReviewState where
  science_findings : List SciFinding := []
  humanities_findings : List HumFinding := []
  tafseer_findings : Option TafseerFindings := some {}
  synthesis : String := ""
  linguistic_roots : List String := []
  verses : List Value := []
  deriving Repr

/-- The issues contributed by one science finding
(quality_review.py 61–71). -/
def sci_issues (f : SciFinding) : List String :=
  (if f.main_objection = "" then ["ارتباط علمي بدون اعتراض رئيسي: " ++ f.verse_key] else [])
  ++ (if f.confidence_tier = "tier_1" ∨ f.confidence_tier = "tier_2"
        ∨ f.confidence_tier = "tier_3" then []
      else ["مستوى ثقة غير صالح: " ++ f.confidence_tier])

/-- The issues contributed by one humanities finding
(quality_review.py 74–84). -/
def hum_issues (f : HumFinding) : List String :=
  (if f.intellectual_honesty_note = ""
    then ["ارتباط إنساني بدون ملاحظة أمانة علمية: " ++ f.verse_key] else [])
  ++ (if f.correlation_type = "intersecting" ∨ f.correlation_type = "parallel"
        ∨ f.correlation_type = "inspirational" then []
      else ["نوع ارتباط غير صالح: " ++ f.correlation_type])

/-- `_rule_based_checks` (quality_review.py 56–110). -/
def rule_based_checks (st : ReviewState) : List String :=
  (st.science_findings.flatMap sci_issues)
  ++ (st.humanities_findings.flatMap hum_issues)
  ++ (match st.tafseer_findings with
      | some t =>
        (if t.consensus_view = "" then ["لا يوجد رأي إجماعي في التفسير"] else [])
        ++ (if t.shaarawy_linguistic_note = ""
            then ["لا توجد ملاحظة لغوية من الشعراوي"] else [])
      | Option.none => [])
  ++ (if st.synthesis = "" then ["لا يوجد توليف بحثي"]
      else if ¬ ("tier_".data <:+: st.synthesis.data)
        then ["التوليف لا يتضمن مستوى الثقة الإجمالي"] else [])
  ++ (if st.linguistic_roots = ([] : List String)
      then ["لا توجد جذور لغوية في التحليل"] else [])
  ++ (if st.verses = ([] : List Value) then ["لم يتم العثور على آيات"] else [])

/-- The dict parsed from the optional LLM second opinion
(quality_review.py 39–43); keys may be absent. -/
structure LlmReview where
  quality_issues : List String := []
  quality_score : Option ℚ := Option.none
  deriving Repr

/-- Python's `round(n)` at integer precision with banker's rounding,
applied to `q * 100` by `pythonRound2`. -/
def round2int (n : ℚ) : ℤ :=
  if n - Int.floor n < 1/2 then Int.floor n
  else if 1/2 < n - Int.floor n then Int.floor n + 1
  else if Int.floor n % 2 = 0 then Int.floor n else Int.floor n + 1

/-- Python's `round(q, 2)` on exact rationals. -/
def pythonRound2 (q : ℚ) : ℚ := (round2int (q * 100) : ℚ) / 100

/-- The score combination of `review` (quality_review.py 39–45):
average with the LLM score when an LLM result arrived, else the rule
score; a missing LLM `quality_score` key defaults to the rule score. -/
def pre_score (rule_score : ℚ) (llm : Option LlmReview) : ℚ :=
  match llm with
  | some l => (rule_score + l.quality_score.getD rule_score) / 2
  | Option.none => rule_score

/-- `QualityReviewAgent.review` (quality_review.py 26–54); the LLM
outcome is the external input `llm` (`none` covers both an exception
and an empty parse). -/
def review (st : ReviewState) (llm : Option LlmReview) : ReviewResult :=
  let issues := rule_based_checks st
  let rule_score : ℚ := max 0 (1 - (issues.length : ℚ) * (15/100))
  let final_score := pythonRound2 (max 0 (min 1 (pre_score rule_score llm)))
  { quality_score := final_score
    quality_issues := issues ++ (match llm with
      | some l => l.quality_issues
      | Option.none => [])
    should_deepen := decide (final_score < 6/10) }

theorem round2int_bounds (n : ℚ) (h0 : 0 ≤ n) (h1 : n ≤ 100) :
    0 ≤ round2int n ∧ round2int n ≤ 100 := by
  unfold round2int
  have hf0 : (0 : ℤ) ≤ Int.floor n := Int.floor_nonneg.mpr h0
  have hfn : (Int.floor n : ℚ) ≤ n := Int.floor_le n
  have hf100 : Int.floor n ≤ 100 := by
    have : (Int.floor n : ℚ) ≤ (100 : ℚ) := le_trans hfn h1
    exact_mod_cast this
  split_ifs with hr1 hr2 hev
  · exact ⟨hf0, hf100⟩
  · have hlt : (Int.floor n : ℚ) < n := by linarith
    have : Int.floor n < 100 := by
      have h := lt_of_lt_of_le hlt h1
      exact_mod_cast h
    exact ⟨by omega, by omega⟩
  · exact ⟨hf0, hf100⟩
  · have hr : n - Int.floor n = 1/2 := le_antisymm (not_lt.mp hr2) (not_lt.mp hr1)
    have hlt : (Int.floor n : ℚ) < n := by linarith
    have : Int.floor n < 100 := by
      have h := lt_of_lt_of_le hlt h1
      exact_mod_cast h
    exact ⟨by omega, by omega⟩

theorem pythonRound2_mem (q : ℚ) (h0 : 0 ≤ q) (h1 : q ≤ 1) :
    0 ≤ pythonRound2 q ∧ pythonRound2 q ≤ 1 := by
  obtain ⟨a, b⟩ := round2int_bounds (q * 100) (by positivity) (by nlinarith)
  unfold pythonRound2
  constructor
  · exact div_nonneg (by exact_mod_cast a) (by norm_num)
  · rw [div_le_one (by norm_num)]
    exact_mod_cast b

/-- Claim C8: the gate's `should_deepen` is true exactly when the
returned `quality_score` is strictly below the fixed threshold 0.6, and
the returned score is clamped into `[0, 1]`. -/
theorem claim_C8 (st : ReviewState) (llm : Option LlmReview) :
    ((review st llm).should_deepen = true ↔ (review st llm).quality_score < 6/10)
    ∧ 0 ≤ (review st llm).quality_score
    ∧ (review st llm).quality_score ≤ 1 := by
  have hmem := pythonRound2_mem
    (max 0 (min 1 (pre_score (max 0 (1 - ((rule_based_checks st).length : ℚ) * (15/100))) llm)))
    (le_max_left _ _)
    (max_le zero_le_one (min_le_left _ _))
  refine ⟨?_, ?_, ?_⟩
  · simp only [review, decide_eq_true_eq]
  · exact hmem.1
  · exact hmem.2

-- ── AutonomousDiscoveryScheduler (scheduler.py 12–110) ─────────────────

/-- An APScheduler trigger as configured by `start` (scheduler.py
33–59): an interval in hours, a daily cron at a fixed hour, or a weekly
cron at a fixed day and hour. -/
inductive Trigger where
  | interval (hours : Nat)
  | cronDaily (hour : Nat)
  | cronWeekly (day_of_week : String) (hour : Nat)
  deriving DecidableEq, Repr

/-- One `scheduler.add_job` registration. -/
structure Job where
  id : String
  task : String
  trigger : Trigger
  deriving DecidableEq, Repr

/-- The job registrations performed by
`AutonomousDiscoveryScheduler.start` (scheduler.py 33–59), in source
order. -/
def scheduler_start_jobs : List Job :=
  [{ id := "mcts_exploration", task := "_run_mcts_session", trigger := .interval 6 },
   { id := "numerical_scan", task := "_scan_numerical_patterns", trigger := .cronDaily 2 },
   { id := "weekly_report", task := "_generate_weekly_report", trigger := .cronWeekly "sun" 8 }]

/-- `AutonomousDiscoveryScheduler.TOPICS_QUEUE` (scheduler.py 15–24). -/
def TOPICS_QUEUE : List (String × String) :=
  [("نسبية الزمن", "physics"),
   ("الأجنة في القرآن", "biology"),
   ("الذكر والصحة النفسية", "psychology"),
   ("العدل الاقتصادي", "economics"),
   ("الكونيات القرآنية", "astrophysics"),
   ("الطب الوقائي", "medicine"),
   ("القيادة والشورى", "management"),
   ("الأنظمة الاجتماعية", "sociology")]

/-- The topic selection of `_run_mcts_session` (scheduler.py 62–66):
`TOPICS_QUEUE[self.topic_idx % len(TOPICS_QUEUE)]`, then
`self.topic_idx += 1`.  Returns the chosen topic and the new index. -/
def run_mcts_topic (topic_idx : Nat) : (String × String) × Nat :=
  (TOPICS_QUEUE.getD (topic_idx % TOPICS_QUEUE.length) ("", ""), topic_idx + 1)

/-- Claim C9, counterexample: `start` registers exactly three jobs, not
four, and none of them is hourly — the triggers are every-six-hours,
daily at 02:00, and weekly on Sunday at 08:00. -/
theorem claim_C9_counterexample :
    scheduler_start_jobs.length = 3
    ∧ scheduler_start_jobs.length ≠ 4
    ∧ scheduler_start_jobs.map Job.trigger
      = [Trigger.interval 6, Trigger.cronDaily 2, Trigger.cronWeekly "sun" 8] := by
  decide

/-- Claim C9, amended: starting the background scheduler registers
exactly three fixed periodic jobs — an every-six-hours MCTS session, a
daily 02:00 numerical-pattern scan, and a weekly Sunday 08:00 report —
and only the six-hour MCTS job draws its seeded topic round-robin from
the rotating topic list: the index always advances by 1, the selection
is periodic in the queue length, and the first cycle covers the whole
queue in order. -/
theorem claim_C9_amended :
    scheduler_start_jobs
      = [{ id := "mcts_exploration", task := "_run_mcts_session", trigger := .interval 6 },
         { id := "numerical_scan", task := "_scan_numerical_patterns", trigger := .cronDaily 2 },
         { id := "weekly_report", task := "_generate_weekly_report",
           trigger := .cronWeekly "sun" 8 }]
    ∧ (∀ i : Nat, (run_mcts_topic i).2 = i + 1
        ∧ (run_mcts_topic (i + TOPICS_QUEUE.length)).1 = (run_mcts_topic i).1)
    ∧ (List.range TOPICS_QUEUE.length).map (fun i => (run_mcts_topic i).1) = TOPICS_QUEUE := by
  refine ⟨rfl, ?_, by decide⟩
  intro i
  refine ⟨rfl, ?_⟩
  simp only [run_mcts_topic, Nat.add_mod_right]

-- ── The SSE translation adapter (discovery.py 143–213) ─────────────────

/-- One outgoing client event before SSE framing: `(event_name, payload)`
as passed to `_sse_event`. -/
abbrev Event := String × Value

/-- Python truthiness of a dict value. -/
def truthy : Value → Bool
  | .str s => s != ""
  | .int n => n != 0
  | .rat q => q != 0
  | .bool b => b
  | .vnil => false
  | .vcons _ _ => true
  | .dnil => false
  | .dcons _ _ _ => true
  | .none => false

/-- The `quran_rag` branch of `_translate_node` (discovery.py 150–161):
maybe emit `quran_search`, then maybe emit `quran_found` when the
verses value is truthy. -/
def translate_quran_rag (node_state : Dict) (emitted : List String) :
    List Event × List String :=
  let step1 : List Event × List String :=
    if "quran_search" ∉ emitted then
      ([("quran_search", Value.ofDict [("stage", .str "quran_search")])],
       emitted ++ ["quran_search"])
    else ([], emitted)
  if truthy (getValD node_state "verses" Value.vnil) = true ∧ "quran_found" ∉ step1.2 then
    (step1.1 ++ [("quran_found", Value.ofDict [("stage", .str "quran_found"),
        ("verses", getValD node_state "verses" Value.vnil)])],
     step1.2 ++ ["quran_found"])
  else step1

/-- `_translate_node` (discovery.py 143–197): translate one node's
output into outgoing events, threading the adapter-local `emitted` set
(modelled as the list of names added to it, in order). -/
def translate_node (node_name : String) (node_state : Dict) (emitted : List String) :
    List Event × List String :=
  if node_name = "route_query" ∧ "quran_search" ∉ emitted then
    ([("quran_search", Value.ofDict [("stage", .str "quran_search")])],
     emitted ++ ["quran_search"])
  else if node_name = "quran_rag" then
    translate_quran_rag node_state emitted
  else if node_name = "linguistic" ∧ "linguistic" ∉ emitted then
    ([("linguistic", Value.ofDict [("stage", .str "linguistic")])],
     emitted ++ ["linguistic"])
  else if node_name = "science" ∨ node_name = "humanities" then
    let findings_key := if node_name = "science" then "science_findings"
      else "humanities_findings"
    ((getValD node_state findings_key Value.vnil).toList.map
      (fun f => ("science_finding", Value.ofDict [("stage", .str "science_finding"),
         ("finding", f)])),
     emitted)
  else if node_name = "tafseer" then
    if "tafseer" ∉ emitted then
      ([("tafseer", Value.ofDict [("stage", .str "tafseer")])], emitted ++ ["tafseer"])
    else ([], emitted)
  else if node_name = "synthesis" then
    if truthy (getValD node_state "synthesis" (Value.str "")) = true
        ∧ "synthesis" ∉ emitted then
      ([("synthesis_token", Value.ofDict [("stage", .str "synthesis_token"),
          ("token", getValD node_state "synthesis" (Value.str ""))])],
       emitted ++ ["synthesis"])
    else ([], emitted)
  else if node_name = "quality_review" then
    if "quality_done" ∉ emitted then
      ([("quality_done", Value.ofDict [("stage", .str "quality_done"),
          ("score", getValD node_state "quality_score" (Value.int 0))])],
       emitted ++ ["quality_done"])
    else ([], emitted)
  else ([], emitted)

/-- The adapter run over a whole session: the sequence of
`(node_name, node_state)` chunks seen by the streaming loop
(discovery.py 98–104 and 116–120), threading one `emitted` set. -/
def translateAll : List (String × Dict) → List String → List Event
  | [], _ => []
  | (n, s) :: rest, em =>
    (translate_node n s em).1 ++ translateAll rest (translate_node n s em).2

/-- The number of outgoing events named `e`. -/
def countName (evs : List Event) (e : String) : Nat :=
  (evs.filter (fun ev => ev.1 = e)).length

theorem countName_append (a b : List Event) (e : String) :
    countName (a ++ b) e = countName a e + countName b e := by
  simp [countName, List.filter_append]

theorem countName_map_finding (l : List Value) (g : Value → Value) (e : String)
    (h : e ≠ "science_finding") :
    countName (l.map (fun f => (("science_finding" : String), g f))) e = 0 := by
  induction l with
  | nil => rfl
  | cons x xs ih => simpa [countName, List.filter, Ne.symm h] using ih

/-- The de-duplication contract of one adapter step for the guarded
event `e` keyed by `k` in the emitted set: no emission once the key is
set, at most one emission, an emission sets the key, and the key is
never unset. -/
def GuardOK (k e : String) (em : List String) (res : List Event × List String) : Prop :=
  (k ∈ em → countName res.1 e = 0)
  ∧ countName res.1 e ≤ 1
  ∧ (1 ≤ countName res.1 e → k ∈ res.2)
  ∧ (k ∈ em → k ∈ res.2)

theorem guard_qr_qs (s : Dict) (em : List String) :
    GuardOK "quran_search" "quran_search" em (translate_quran_rag s em) := by
  unfold translate_quran_rag GuardOK
  by_cases h1 : "quran_search" ∈ em <;>
    by_cases h2 : truthy (getValD s "verses" Value.vnil) = true <;>
      by_cases h3 : "quran_found" ∈ em <;>
        simp [h1, h2, h3, countName, List.filter]

theorem guard_qr_qf (s : Dict) (em : List String) :
    GuardOK "quran_found" "quran_found" em (translate_quran_rag s em) := by
  unfold translate_quran_rag GuardOK
  by_cases h1 : "quran_search" ∈ em <;>
    by_cases h2 : truthy (getValD s "verses" Value.vnil) = true <;>
      by_cases h3 : "quran_found" ∈ em <;>
        simp [h1, h2, h3, countName, List.filter]

theorem guard_qr_other (k e : String) (s : Dict) (em : List String)
    (he1 : e ≠ "quran_search") (he2 : e ≠ "quran_found") :
    GuardOK k e em (translate_quran_rag s em) := by
  unfold translate_quran_rag GuardOK
  by_cases h1 : "quran_search" ∈ em <;>
    by_cases h2 : truthy (getValD s "verses" Value.vnil) = true <;>
      by_cases h3 : "quran_found" ∈ em <;>
        simp [h1, h2, h3, countName, List.filter, Ne.symm he1, Ne.symm he2] <;>
          intro h4 <;> simp [h4]

theorem guard_findings (k e : String) (l : List Value) (em : List String)
    (he : e ≠ "science_finding") :
    GuardOK k e em
      (l.map (fun f => (("science_finding" : String),
        Value.ofDict [("stage", Value.str "science_finding"), ("finding", f)])), em) := by
  have h0 : countName (l.map fun f => (("science_finding" : String),
      Value.ofDict [("stage", Value.str "science_finding"), ("finding", f)])) e = 0 :=
    countName_map_finding l _ e he
  refine ⟨fun _ => h0, ?_, ?_, fun h => h⟩
  · rw [h0]
    exact Nat.zero_le 1
  · intro h
    rw [h0] at h
    exact absurd h (by norm_num)

theorem guardOK_quran_search (n : String) (s : Dict) (em : List String) :
    GuardOK "quran_search" "quran_search" em (translate_node n s em) := by
  unfold translate_node
  split_ifs <;>
    first
      | exact guard_qr_qs s em
      | exact guard_findings _ _ _ em (by decide)
      | simp_all [GuardOK, countName, List.filter]

theorem guardOK_quran_found (n : String) (s : Dict) (em : List String) :
    GuardOK "quran_found" "quran_found" em (translate_node n s em) := by
  unfold translate_node
  split_ifs <;>
    first
      | exact guard_qr_qf s em
      | exact guard_findings _ _ _ em (by decide)
      | simp_all [GuardOK, countName, List.filter]

theorem guardOK_linguistic (n : String) (s : Dict) (em : List String) :
    GuardOK "linguistic" "linguistic" em (translate_node n s em) := by
  unfold translate_node
  split_ifs <;>
    first
      | exact guard_qr_other "linguistic" "linguistic" s em (by decide) (by decide)
      | exact guard_findings _ _ _ em (by decide)
      | simp_all [GuardOK, countName, List.filter]

theorem guardOK_tafseer (n : String) (s : Dict) (em : List String) :
    GuardOK "tafseer" "tafseer" em (translate_node n s em) := by
  unfold translate_node
  split_ifs <;>
    first
      | exact guard_qr_other "tafseer" "tafseer" s em (by decide) (by decide)
      | exact guard_findings _ _ _ em (by decide)
      | simp_all [GuardOK, countName, List.filter]

theorem guardOK_synthesis (n : String) (s : Dict) (em : List String) :
    GuardOK "synthesis" "synthesis_token" em (translate_node n s em) := by
  unfold translate_node
  split_ifs <;>
    first
      | exact guard_qr_other "synthesis" "synthesis_token" s em (by decide) (by decide)
      | exact guard_findings _ _ _ em (by decide)
      | simp_all [GuardOK, countName, List.filter]

theorem guardOK_quality_done (n : String) (s : Dict) (em : List String) :
    GuardOK "quality_done" "quality_done" em (translate_node n s em) := by
  unfold translate_node
  split_ifs <;>
    first
      | exact guard_qr_other "quality_done" "quality_done" s em (by decide) (by decide)
      | exact guard_findings _ _ _ em (by decide)
      | simp_all [GuardOK, countName, List.filter]

theorem translateAll_guard (k e : String)
    (hOK : ∀ n s em, GuardOK k e em (translate_node n s em)) :
    ∀ (chunks : List (String × Dict)) (em : List String),
      countName (translateAll chunks em) e ≤ if k ∈ em then 0 else 1 := by
  intro chunks
  induction chunks with
  | nil =>
    intro em
    have : countName (translateAll [] em) e = 0 := rfl
    rw [this]
    split <;> omega
  | cons c rest ih =>
    intro em
    obtain ⟨n, s⟩ := c
    obtain ⟨p1, p2, p3, p4⟩ := hOK n s em
    have hsplit : countName (translateAll ((n, s) :: rest) em) e
        = countName (translate_node n s em).1 e
          + countName (translateAll rest (translate_node n s em).2) e := by
      simp [translateAll, countName_append]
    rw [hsplit]
    by_cases hk : k ∈ em
    · have := ih (translate_node n s em).2
      rw [if_pos (p4 hk)] at this
      rw [p1 hk, if_pos hk]
      omega
    · rw [if_neg hk]
      rcases Nat.lt_or_ge (countName (translate_node n s em).1 e) 1 with h0 | h1
      · have h0' : countName (translate_node n s em).1 e = 0 := Nat.lt_one_iff.mp h0
        have := ih (translate_node n s em).2
        rw [h0']
        split at this <;> omega
      · have hc1 : countName (translate_node n s em).1 e = 1 := le_antisymm p2 h1
        have hrest := ih (translate_node n s em).2
        rw [if_pos (p3 h1)] at hrest
        omega

/-- Claim C5: over any session (any sequence of node chunks reaching the
adapter, loop-backs included), each of the guarded outgoing events
`quran_search`, `quran_found`, `linguistic`, `tafseer`, the full-text
`synthesis_token`, and `quality_done` is emitted at most once; only
`science_finding` (and per-fragment tokens, absent in this path) may
repeat. -/
theorem claim_C5 (chunks : List (String × Dict)) :
    countName (translateAll chunks []) "quran_search" ≤ 1
    ∧ countName (translateAll chunks []) "quran_found" ≤ 1
    ∧ countName (translateAll chunks []) "linguistic" ≤ 1
    ∧ countName (translateAll chunks []) "tafseer" ≤ 1
    ∧ countName (translateAll chunks []) "synthesis_token" ≤ 1
    ∧ countName (translateAll chunks []) "quality_done" ≤ 1 := by
  refine ⟨?_, ?_, ?_, ?_, ?_, ?_⟩
  · simpa using translateAll_guard "quran_search" "quran_search" guardOK_quran_search chunks []
  · simpa using translateAll_guard "quran_found" "quran_found" guardOK_quran_found chunks []
  · simpa using translateAll_guard "linguistic" "linguistic" guardOK_linguistic chunks []
  · simpa using translateAll_guard "tafseer" "tafseer" guardOK_tafseer chunks []
  · simpa using translateAll_guard "synthesis" "synthesis_token" guardOK_synthesis chunks []
  · simpa using translateAll_guard "quality_done" "quality_done" guardOK_quality_done chunks []

-- ── The SSE stream shape (discovery.py 64–122, 200–213) ────────────────

/-- The opening event of `event_generator` (discovery.py 65). -/
def session_start_event (sid : String) : Event :=
  ("session_start", Value.ofDict [("session_id", .str sid)])

/-- The terminal event of the `except` clause (discovery.py 79–80):
payload `{error: message}`. -/
def error_event (msg : String) : Event :=
  ("error", Value.ofDict [("error", .str msg)])

/-- `_complete_event` (discovery.py 200–213). -/
def complete_event (state : Dict) (sid : String) : Event :=
  ("complete", Value.ofDict
    [("stage", .str "complete"),
     ("session_id", .str sid),
     ("synthesis", getValD state "synthesis" (Value.str "")),
     ("confidence_tier", getValD state "confidence_tier" (Value.str "")),
     ("quality_score", getValD state "quality_score" (Value.rat 0)),
     ("quality_issues", getValD state "quality_issues" Value.vnil),
     ("verses_count", .int (getValD state "verses" Value.vnil).toList.length),
     ("science_findings_count",
       .int (getValD state "science_findings" Value.vnil).toList.length),
     ("humanities_findings_count",
       .int (getValD state "humanities_findings" Value.vnil).toList.length),
     ("discovery_id", getValD state "discovery_id" Value.none)])

/-- How one driven run of the engine ends, as observed by
`event_generator` (discovery.py 64–80): either the source generator
finishes normally after yielding its translated chunks and the final
`complete` event, or an exception interrupts it after `k` of the
translated events were yielded. -/
inductive RunOutcome where
  | ok (chunks : List (String × Dict)) (finalState : Dict)
  | exn (chunks : List (String × Dict)) (k : Nat) (msg : String)

/-- `event_generator` (discovery.py 64–80): yield `session_start`, then
the source's events; any uncaught exception yields one terminal `error`
event, after which the generator ends. -/
def event_generator (sid : String) (o : RunOutcome) : List Event :=
  session_start_event sid ::
    (match o with
     | .ok chunks finalState => translateAll chunks [] ++ [complete_event finalState sid]
     | .exn chunks k msg => (translateAll chunks []).take k ++ [error_event msg])

/-- An event closing the stream: `complete` or `error`. -/
def isTerminal (ev : Event) : Bool :=
  ev.1 = "complete" || ev.1 = "error"

theorem translate_quran_rag_not_terminal (s : Dict) (em : List String) :
    ∀ ev ∈ (translate_quran_rag s em).1, isTerminal ev = false := by
  intro ev hev
  by_cases h1 : "quran_search" ∈ em <;>
    by_cases h2 : truthy (getValD s "verses" Value.vnil) = true <;>
      by_cases h3 : "quran_found" ∈ em <;>
        simp [translate_quran_rag, h1, h2, h3] at hev <;>
          (rcases hev with rfl | rfl <;> rfl)

theorem translate_node_not_terminal (n : String) (s : Dict) (em : List String) :
    ∀ ev ∈ (translate_node n s em).1, isTerminal ev = false := by
  intro ev hev
  unfold translate_node at hev
  repeat' split at hev
  all_goals
    first
      | exact translate_quran_rag_not_terminal s em ev hev
      | exact absurd hev (List.not_mem_nil ev)
      | (simp only [List.mem_append, List.mem_singleton, List.mem_cons,
          List.not_mem_nil, or_false, false_or, List.mem_map] at hev
         first
           | (rcases hev with rfl | rfl <;> rfl)
           | (obtain ⟨f, hf, rfl⟩ := hev; rfl))

theorem translateAll_not_terminal (chunks : List (String × Dict)) (em : List String) :
    ∀ ev ∈ translateAll chunks em, isTerminal ev = false := by
  induction chunks generalizing em with
  | nil =>
    intro ev hev
    exact absurd hev (List.not_mem_nil ev)
  | cons c rest ih =>
    obtain ⟨n, s⟩ := c
    intro ev hev
    rcases List.mem_append.mp hev with h | h
    · exact translate_node_not_terminal n s em ev h
    · exact ih _ ev h

/-- Claim C6: every stream begins with `session_start` and ends with
exactly one terminal event — `complete` on normal termination, and on
any uncaught exception a single terminal `error` event with payload
`{error: message}` after which nothing else is emitted. -/
theorem claim_C6 (sid : String) (o : RunOutcome) :
    (event_generator sid o).head? = some (session_start_event sid)
    ∧ ((event_generator sid o).filter isTerminal).length = 1
    ∧ (event_generator sid o).getLast? = some (match o with
        | .ok _ finalState => complete_event finalState sid
        | .exn _ _ msg => error_event msg) := by
  cases o with
  | ok chunks finalState =>
    refine ⟨rfl, ?_, ?_⟩
    · have hnil : (translateAll chunks []).filter isTerminal = [] :=
        List.filter_eq_nil_iff.mpr (fun a ha => by
          simp [translateAll_not_terminal chunks [] a ha])
      simp [event_generator, List.filter_cons, List.filter_append, hnil, isTerminal,
        session_start_event, complete_event, List.filter]
    · show (session_start_event sid ::
        (translateAll chunks [] ++ [complete_event finalState sid])).getLast? = _
      rw [← List.cons_append, List.getLast?_concat]
  | exn chunks k msg =>
    refine ⟨rfl, ?_, ?_⟩
    · have hnil : ((translateAll chunks []).take k).filter isTerminal = [] :=
        List.filter_eq_nil_iff.mpr (fun a ha => by
          simp [translateAll_not_terminal chunks [] a (List.take_subset k _ ha)])
      simp [event_generator, List.filter_cons, List.filter_append, hnil, isTerminal,
        session_start_event, error_event, List.filter]
    · show (session_start_event sid ::
        ((translateAll chunks []).take k ++ [error_event msg])).getLast? = _
      rw [← List.cons_append, List.getLast?_concat]
